import Mathlib

/-!
Verification of the diceware passphrase generator (diceware.py).

This file gives a shallow embedding of the program's core functions
(`generate`, `generate_grid`, `read_word_list`, the `SPECIAL_CHARS`
alphabet) and of the spec's Entropy-to-Integer Mapper (`read_bits`,
`uniform`, which the spec describes but whose source file is not part of
the repository snapshot), and proves the specification claims about them.

Python exceptions are modelled with `Except PyError`; the operating-system
random number generator behind `random.SystemRandom` is modelled as an
abstract entropy oracle (an arbitrary function from draw index to a raw
natural number) threaded through the computation, with `randrange n`
reducing the raw draw into the range `[0, n)` and failing — as Python's
`randrange`/`choice` do — when `n = 0`.
-/

namespace Diceware

/-- Errors the program can raise: `IndexError` from out-of-range string
indexing, and `ValueError` with a message (`raise ValueError(...)`). -/
inductive PyError where
  | indexError : PyError
  | valueError : String → PyError
deriving DecidableEq, Repr

/-! ## The special-character alphabet

Source line 49: `SPECIAL_CHARS = "~!#$%^&*()-=+[]\{}:;\"'<>?/0123456789"`.
In Python 2 the escape `\x7b` is not recognized after a lone backslash, so
the literal backslash stays in the string; the characters are, in order:
tilde, bang, hash, dollar, percent, caret, ampersand, star, open paren,
close paren, dash, equals, plus, open bracket, close bracket, backslash,
open brace, close brace, colon, semicolon, double quote, single quote,
less than, greater than, question mark, slash, and the ten digits.
The `Char.ofNat` entries are, by code point: 92 backslash, 123 open
brace, 125 close brace, 34 double quote, 39 single quote. -/

def SPECIAL_CHARS : List Char :=
  ['~', '!', '#', '$', '%', '^', '&', '*', '(', ')', '-', '=', '+',
   '[', ']', Char.ofNat 92, Char.ofNat 123, Char.ofNat 125, ':', ';',
   Char.ofNat 34, Char.ofNat 39, '<', '>', '?', '/',
   '0', '1', '2', '3', '4', '5', '6', '7', '8', '9']

/-! ## The entropy model

`generate` constructs `rnd = SystemRandom()` and calls `rnd.choice` /
`rnd.randrange`.  `SystemRandom` reads the operating system entropy pool;
we model it as an oracle `raw : ℕ → ℕ` giving the raw entropy consumed by
the t-th draw, together with the draw counter `t`. -/

structure RndGen where
  raw : ℕ → ℕ
  t : ℕ

/-- Model of `rnd.randrange(n)`: a uniformly distributed integer in
`[0, n)`, here the oracle's next raw value reduced into range; Python
raises `ValueError` when `n = 0` (empty range), modelled as `none`. -/
def randrange (r : RndGen) (n : ℕ) : Option (ℕ × RndGen) :=
  if n = 0 then none
  else some (r.raw r.t % n, ⟨r.raw, r.t + 1⟩)

/-- Model of `rnd.choice(xs)`: selects an element of `xs` at a uniformly
drawn index; fails (Python `IndexError`) when `xs` is empty. -/
def choice (r : RndGen) (xs : List String) : Option (String × RndGen) :=
  (randrange r xs.length).bind fun ir =>
    (xs[ir.1]?).map fun w => (w, ir.2)

/-! ## generate (source lines 77-106) -/

/-- Embedding of the list comprehension
`[ rnd.choice(word_list) for _ in range(words) ]`: draws `n` words in
order, threading the entropy state. -/
def pickWords (r : RndGen) (word_list : List String) : ℕ → Option (List String × RndGen)
  | 0 => some ([], r)
  | n + 1 =>
    (choice r word_list).bind fun wr =>
      (pickWords wr.2 word_list n).map fun pr => (wr.1 :: pr.1, pr.2)

/-- One round of the special-character substitution loop (source lines
87-100): draw a word index `i`, a character position `j` within word `i`,
a special-character index `k`, and overwrite character `j` of word `i`
with `SPECIAL_CHARS[k]`. -/
def substRound (r : RndGen) (sw : List (List Char)) : Option (List (List Char) × RndGen) :=
  (randrange r sw.length).bind fun ir =>
    (randrange ir.2 (sw.getD ir.1 []).length).bind fun jr =>
      (randrange jr.2 SPECIAL_CHARS.length).bind fun kr =>
        some (sw.set ir.1 ((sw.getD ir.1 []).set jr.1 (SPECIAL_CHARS.getD kr.1 ' ')), kr.2)

/-- The `for _ in range(specials)` loop: `m` sequential substitution
rounds. -/
def substRounds (r : RndGen) (sw : List (List Char)) : ℕ → Option (List (List Char) × RndGen)
  | 0 => some (sw, r)
  | m + 1 => (substRound r sw).bind fun sr => substRounds sr.2 sr.1 m

/-- Embedding of `generate(word_list, words, specials)` (source lines
77-106). Returns the pair `(words, with_specials)` of the source plus the
final entropy state. When `specials` is zero (Python falsy) the
`with_specials` component is the word sequence itself; otherwise the words
are split to character lists, `specials` substitution rounds run, and the
results are joined back to strings. -/
def generate (word_list : List String) (words specials : ℕ) (r : RndGen) :
    Option (List String × List String × RndGen) :=
  (pickWords r word_list words).bind fun wr =>
    if specials ≠ 0 then
      (substRounds wr.2 (wr.1.map String.toList) specials).map fun sr =>
        (wr.1, sr.1.map String.mk, sr.2)
    else
      some (wr.1, wr.1, wr.2)

/-! ## generate_grid (source lines 61-75) -/

/-- Running maximum of the word lengths of a row, `max(len(x) for x in
word_row)`; the loop only ever applies it to nonempty rows, where it
agrees with Python's `max`. -/
def rowMax (row : List String) : ℕ :=
  (row.map String.length).foldr max 0

/-- The `for _ in range(words)` loop of `generate_grid`: `n` iterations,
each calling `generate` afresh, appending `with_specials` when `specials`
is nonzero and `word_row` otherwise, and folding the running maximum word
length (computed from `word_row`) with initial value `longest`. -/
def gridRows (word_list : List String) (words specials : ℕ) :
    ℕ → RndGen → ℕ → Option (List (List String) × ℕ × RndGen)
  | 0, r, longest => some ([], longest, r)
  | n + 1, r, longest =>
    (generate word_list words specials r).bind fun g =>
      let row := if specials ≠ 0 then g.2.1 else g.1
      (gridRows word_list words specials n g.2.2 (max (rowMax g.1) longest)).map fun pr =>
        (row :: pr.1, pr.2)

/-- Embedding of `generate_grid(word_list, words, specials)` (source
lines 61-75): `words` rows, each from an independent `generate` call, plus
the longest word length across all rows. -/
def generate_grid (word_list : List String) (words specials : ℕ) (r : RndGen) :
    Option (List (List String) × ℕ × RndGen) :=
  gridRows word_list words specials words r 0

/-! ## read_word_list (source lines 109-119) -/

/-- Python 2 `str.isspace` membership test for a single character: space,
tab, newline, carriage return, vertical tab, form feed. -/
def isspaceChar (c : Char) : Bool :=
  c == ' ' || c == '\t' || c == '\n' || c == '\r' ||
    c == Char.ofNat 11 || c == Char.ofNat 12

/-- Python 2 `str.isdigit`: true iff the string is nonempty and every
character is a decimal digit. -/
def pyIsdigit (cs : List Char) : Bool :=
  !cs.isEmpty && cs.all Char.isDigit

/-- Python `str.strip()`: remove whitespace from both ends. -/
def pyStrip (cs : List Char) : List Char :=
  ((cs.dropWhile isspaceChar).reverse.dropWhile isspaceChar).reverse

/-- The filter condition `line[0:5].isdigit() and line[5].isspace()` of
the comprehension on source lines 112-113.  `line[0:5]` is a slice (at
most 5 characters, shorter on a short line), so `isdigit` can hold on an
all-digit line of length 1 to 5; the subsequent indexing `line[5]` then
raises `IndexError`.  `and` short-circuits, so the index is only touched
when the isdigit test passed. -/
def lineTest (line : String) : Except PyError Bool :=
  if pyIsdigit (line.toList.take 5) then
    match line.toList[5]? with
    | some c => .ok (isspaceChar c)
    | none => .error .indexError
  else
    .ok false

/-- The word contributed by a line that passes the filter:
`line[6:].strip()`. -/
def extractWord (line : String) : String :=
  String.mk (pyStrip (line.toList.drop 6))

/-- The list comprehension of source lines 112-113: walk the lines in
order, keep `line[6:].strip()` for each line passing the filter, and
propagate the first exception the filter raises. -/
def collectWords : List String → Except PyError (List String)
  | [] => .ok []
  | line :: rest =>
    match lineTest line with
    | .error e => .error e
    | .ok b =>
      match collectWords rest with
      | .error e => .error e
      | .ok ws => .ok (if b then extractWord line :: ws else ws)

/-- Embedding of `read_word_list(fobj)` (source lines 109-119): run the
comprehension over the input lines, then require exactly 6^5 = 7776 words,
raising `ValueError("invalid word list format")` otherwise. -/
def read_word_list (lines : List String) : Except PyError (List String) :=
  match collectWords lines with
  | .error e => .error e
  | .ok word_list =>
    if word_list.length ≠ 7776 then .error (.valueError "invalid word list format")
    else .ok word_list

/-- The mathematical form of the line filter, as the spec states it: the
first five characters are decimal digits and the sixth character exists
and is whitespace. -/
def passesFilter (line : String) : Bool :=
  pyIsdigit (line.toList.take 5) &&
    (match line.toList[5]? with
     | some c => isspaceChar c
     | none => false)

/-! ## The Entropy-to-Integer Mapper (spec section 4.1)

Modelled from the spec: the repository snapshot contains only the
`SystemRandom`-based script; the `read_bits` / `uniform` mapper the spec
describes is embedded here from the spec's own words.  The entropy source
is an infinite bit stream `src : ℕ → Bool` together with a position. -/

/-- Modelled from the spec: `read_bits(source, count)` consumes exactly
`count` bits, the first bit consumed being the least significant bit of
the resulting integer; returns the value and the new stream position. -/
def read_bits (src : ℕ → Bool) (pos : ℕ) : ℕ → ℕ × ℕ
  | 0 => (0, pos)
  | c + 1 =>
    let b : ℕ := if src pos then 1 else 0
    let vr := read_bits src (pos + 1) c
    (b + 2 * vr.1, vr.2)

/-- Linear search for the least exponent `b ≥ b0` with `n ≤ 2 ^ b`,
with enough fuel; written structurally so that the kernel can evaluate
it. -/
def leastPow (n : ℕ) : ℕ → ℕ → ℕ
  | 0, b => b
  | fuel + 1, b => if n ≤ 2 ^ b then b else leastPow n fuel (b + 1)

/-- Modelled from the spec: the minimum number of bits needed to cover
`[0, n)`, `b = ceil(log2(n))`; `nbits_eq_clog` below proves this equals
Mathlib's ceiling logarithm `Nat.clog 2 n`. -/
def nbits (n : ℕ) : ℕ := leastPow n n 0

/-- Modelled from the spec: the rejection-sampling loop of `uniform` —
draw `b` bits, accept a value `< n`, otherwise redraw.  The loop is given
fuel because an adversarial bit stream (all ones) never produces an
in-range value; `none` means the fuel ran out, never an out-of-range
result. -/
def uniformLoop (src : ℕ → Bool) (b n : ℕ) : ℕ → ℕ → Option (ℕ × ℕ)
  | 0, _ => none
  | fuel + 1, pos =>
    let vr := read_bits src pos b
    if vr.1 < n then some vr else uniformLoop src b n fuel vr.2

/-- Modelled from the spec: `uniform(source, n)` for `n ≥ 1`: if `n = 1`
return 0 consuming no entropy; otherwise rejection-sample `ceil(log2 n)`-
bit draws until one lands in `[0, n)`. -/
def uniform (src : ℕ → Bool) (pos n fuel : ℕ) : Option (ℕ × ℕ) :=
  if n = 1 then some (0, pos)
  else uniformLoop src (nbits n) n fuel pos

/-! ## Difference-counting helpers for the substitution claims -/

/-- Number of character positions at which two equal-length words differ
(positions beyond the shorter word are ignored; all uses are at equal
lengths). -/
def diffChars : List Char → List Char → ℕ
  | a :: as, b :: bs => (if a = b then 0 else 1) + diffChars as bs
  | _, _ => 0

/-- Total number of differing character positions across two lists of
words, summed positionally. -/
def diffWords : List (List Char) → List (List Char) → ℕ
  | a :: as, b :: bs => diffChars a b + diffWords as bs
  | _, _ => 0

/-- Every position of `cur` that differs from `orig` holds a character of
the special alphabet. -/
def diffSpecial : List Char → List Char → Bool
  | a :: as, b :: bs => (a == b || decide (b ∈ SPECIAL_CHARS)) && diffSpecial as bs
  | _, _ => true

/-- `diffSpecial`, lifted positionally over word lists. -/
def diffSpecialAll : List (List Char) → List (List Char) → Bool
  | a :: as, b :: bs => diffSpecial a b && diffSpecialAll as bs
  | _, _ => true

/-- Longest word length occurring in a list of rows (0 for no words). -/
def maxWordLen (rows : List (List String)) : ℕ :=
  (rows.map rowMax).foldr max 0

/-- Reference shape for grid mode following the spec's words (section 6):
each grid row is returned as the full pair `(words, with_specials)` of its
`generate` call, alongside the running maximum word length.  Used to
compare `generate_grid` against the spec's claimed return shape. -/
def gridRowsPairs (word_list : List String) (words specials : ℕ) :
    ℕ → RndGen → ℕ → Option (List (List String × List String) × ℕ × RndGen)
  | 0, r, longest => some ([], longest, r)
  | n + 1, r, longest =>
    (generate word_list words specials r).bind fun g =>
      (gridRowsPairs word_list words specials n g.2.2 (max (rowMax g.1) longest)).map fun pr =>
        ((g.1, g.2.1) :: pr.1, pr.2)

/-- Reference grid generator following the spec's words: a sequence of
row-pairs plus the maximum word width. -/
def generate_grid_pairs (word_list : List String) (words specials : ℕ) (r : RndGen) :
    Option (List (List String × List String) × ℕ × RndGen) :=
  gridRowsPairs word_list words specials words r 0

/-! ## Basic lemmas about the entropy model -/

theorem randrange_lt {r : RndGen} {n i : ℕ} {r2 : RndGen}
    (h : randrange r n = some (i, r2)) : i < n := by
  unfold randrange at h
  by_cases hn : n = 0
  · simp [hn] at h
  · simp only [hn, if_false, Option.some.injEq, Prod.mk.injEq] at h
    exact h.1 ▸ Nat.mod_lt _ (Nat.pos_of_ne_zero hn)

theorem randrange_pos {r : RndGen} {n : ℕ} (hn : n ≠ 0) :
    randrange r n = some (r.raw r.t % n, ⟨r.raw, r.t + 1⟩) := by
  unfold randrange
  simp [hn]

theorem choice_mem {r : RndGen} {xs : List String} {w : String} {r2 : RndGen}
    (h : choice r xs = some (w, r2)) : w ∈ xs := by
  unfold choice at h
  cases hrr : randrange r xs.length with
  | none => rw [hrr] at h; simp at h
  | some ir =>
    rw [hrr] at h
    simp only [Option.some_bind] at h
    cases hix : xs[ir.1]? with
    | none => rw [hix] at h; simp at h
    | some v =>
      rw [hix] at h
      simp only [Option.map_some', Option.some.injEq, Prod.mk.injEq] at h
      obtain ⟨hl, he⟩ := List.getElem?_eq_some.mp hix
      exact h.1 ▸ he ▸ List.getElem_mem hl

theorem choice_total {r : RndGen} {xs : List String} (hxs : xs ≠ []) :
    ∃ w r2, choice r xs = some (w, r2) := by
  have hlen : xs.length ≠ 0 := fun h => hxs (List.eq_nil_of_length_eq_zero h)
  have hlt : r.raw r.t % xs.length < xs.length :=
    Nat.mod_lt _ (Nat.pos_of_ne_zero hlen)
  refine ⟨xs[r.raw r.t % xs.length], ⟨r.raw, r.t + 1⟩, ?_⟩
  unfold choice
  rw [randrange_pos hlen]
  simp [List.getElem?_eq_getElem hlt]

/-! ## Lemmas about pickWords -/

theorem pickWords_sound {word_list : List String} :
    ∀ {n : ℕ} {r : RndGen} {ws : List String} {r2 : RndGen},
      pickWords r word_list n = some (ws, r2) →
      ws.length = n ∧ ∀ w ∈ ws, w ∈ word_list := by
  intro n
  induction n with
  | zero =>
    intro r ws r2 h
    unfold pickWords at h
    simp only [Option.some.injEq, Prod.mk.injEq] at h
    simp [← h.1]
  | succ n ih =>
    intro r ws r2 h
    unfold pickWords at h
    cases hc : choice r word_list with
    | none => rw [hc] at h; simp at h
    | some wr =>
      rw [hc] at h
      simp only [Option.some_bind] at h
      cases hp : pickWords wr.2 word_list n with
      | none => rw [hp] at h; simp at h
      | some pr =>
        rw [hp] at h
        simp only [Option.map_some', Option.some.injEq, Prod.mk.injEq] at h
        obtain ⟨hlen, hmem⟩ := ih hp
        constructor
        · simp [← h.1, hlen]
        · intro w hw
          rw [← h.1] at hw
          rcases List.mem_cons.mp hw with hw | hw
          · exact hw ▸ choice_mem hc
          · exact hmem w hw

theorem pickWords_total {word_list : List String} (hne : word_list ≠ []) :
    ∀ (n : ℕ) (r : RndGen), ∃ ws r2, pickWords r word_list n = some (ws, r2) := by
  intro n
  induction n with
  | zero => intro r; exact ⟨[], r, rfl⟩
  | succ n ih =>
    intro r
    obtain ⟨w, r1, hc⟩ := choice_total (r := r) hne
    obtain ⟨ws, r2, hp⟩ := ih r1
    refine ⟨w :: ws, r2, ?_⟩
    unfold pickWords
    rw [hc]
    simp only [Option.some_bind]
    rw [hp]
    rfl

/-! ## List helper lemmas -/

theorem getD_mem {α : Type} {l : List α} {k : ℕ} {d : α} (h : k < l.length) :
    l.getD k d ∈ l := by
  rw [List.getD_eq_getElem l d h]
  exact List.getElem_mem h

/-- Overwriting one character position changes the per-word length profile
not at all, for any indices (in range or not). -/
theorem map_length_set_set (sw : List (List Char)) :
    ∀ (i j : ℕ) (c : Char),
      (sw.set i ((sw.getD i []).set j c)).map List.length = sw.map List.length := by
  induction sw with
  | nil => intro i j c; rfl
  | cons a as ih =>
    intro i j c
    cases i with
    | zero => simp [List.getD_cons_zero, List.length_set]
    | succ i =>
      simp only [List.getD_cons_succ, List.set_cons_succ, List.map_cons]
      rw [ih i j c]

/-! ## Difference-count lemmas -/

theorem diffChars_refl (l : List Char) : diffChars l l = 0 := by
  induction l with
  | nil => rfl
  | cons a as ih => simp [diffChars, ih]

theorem diffWords_refl (l : List (List Char)) : diffWords l l = 0 := by
  induction l with
  | nil => rfl
  | cons a as ih => simp [diffWords, ih, diffChars_refl]

theorem diffChars_set_le (o : List Char) :
    ∀ (cur : List Char) (j : ℕ) (c : Char),
      diffChars o (cur.set j c) ≤ diffChars o cur + 1 := by
  induction o with
  | nil => intro cur j c; cases cur <;> cases j <;> simp [diffChars]
  | cons a as ih =>
    intro cur j c
    cases cur with
    | nil => simp [diffChars]
    | cons b bs =>
      cases j with
      | zero =>
        simp only [List.set_cons_zero, diffChars]
        have h1 : (if a = c then 0 else 1) ≤ 1 := by split <;> omega
        have h2 : (0 : ℕ) ≤ if a = b then 0 else 1 := Nat.zero_le _
        omega
      | succ j =>
        simp only [List.set_cons_succ, diffChars]
        have := ih bs j c
        omega

theorem diffWords_set_le (orig : List (List Char)) :
    ∀ (sw : List (List Char)) (i j : ℕ) (c : Char),
      diffWords orig (sw.set i ((sw.getD i []).set j c)) ≤ diffWords orig sw + 1 := by
  induction orig with
  | nil => intro sw i j c; cases sw <;> cases i <;> simp [diffWords]
  | cons o os ih =>
    intro sw i j c
    cases sw with
    | nil => simp [diffWords]
    | cons w ws =>
      cases i with
      | zero =>
        simp only [List.getD_cons_zero, List.set_cons_zero, diffWords]
        have := diffChars_set_le o w j c
        omega
      | succ i =>
        simp only [List.getD_cons_succ, List.set_cons_succ, diffWords]
        have := ih ws i j c
        omega

/-! ## Special-character membership lemmas -/

theorem diffSpecial_refl (l : List Char) : diffSpecial l l = true := by
  induction l with
  | nil => rfl
  | cons a as ih => simp [diffSpecial, ih]

theorem diffSpecialAll_refl (l : List (List Char)) : diffSpecialAll l l = true := by
  induction l with
  | nil => rfl
  | cons a as ih => simp [diffSpecialAll, ih, diffSpecial_refl]

theorem diffSpecial_set (o : List Char) :
    ∀ (cur : List Char) (j : ℕ) (c : Char),
      diffSpecial o cur = true → c ∈ SPECIAL_CHARS →
      diffSpecial o (cur.set j c) = true := by
  induction o with
  | nil => intro cur j c h hc; cases cur <;> cases j <;> simp [diffSpecial]
  | cons a as ih =>
    intro cur j c h hc
    cases cur with
    | nil => simp [diffSpecial]
    | cons b bs =>
      simp only [diffSpecial, Bool.and_eq_true] at h
      cases j with
      | zero =>
        simp only [List.set_cons_zero, diffSpecial, Bool.and_eq_true]
        exact ⟨by simp [hc], h.2⟩
      | succ j =>
        simp only [List.set_cons_succ, diffSpecial, Bool.and_eq_true]
        exact ⟨h.1, ih bs j c h.2 hc⟩

theorem diffSpecialAll_set (orig : List (List Char)) :
    ∀ (sw : List (List Char)) (i j : ℕ) (c : Char),
      diffSpecialAll orig sw = true → c ∈ SPECIAL_CHARS →
      diffSpecialAll orig (sw.set i ((sw.getD i []).set j c)) = true := by
  induction orig with
  | nil => intro sw i j c h hc; cases sw <;> cases i <;> simp [diffSpecialAll]
  | cons o os ih =>
    intro sw i j c h hc
    cases sw with
    | nil => simp [diffSpecialAll]
    | cons w ws =>
      simp only [diffSpecialAll, Bool.and_eq_true] at h
      cases i with
      | zero =>
        simp only [List.getD_cons_zero, List.set_cons_zero, diffSpecialAll,
          Bool.and_eq_true]
        exact ⟨diffSpecial_set o w j c h.1 hc, h.2⟩
      | succ i =>
        simp only [List.getD_cons_succ, List.set_cons_succ, diffSpecialAll,
          Bool.and_eq_true]
        exact ⟨h.1, ih ws i j c h.2 hc⟩

/-! ## Structure of one substitution round -/

/-- A successful substitution round overwrites exactly one character
position of one word with a member of the special-character alphabet. -/
theorem substRound_eq {r : RndGen} {sw sw2 : List (List Char)} {r2 : RndGen}
    (h : substRound r sw = some (sw2, r2)) :
    ∃ i j c, c ∈ SPECIAL_CHARS ∧ sw2 = sw.set i ((sw.getD i []).set j c) := by
  unfold substRound at h
  cases h1 : randrange r sw.length with
  | none => rw [h1] at h; simp at h
  | some ir =>
    rw [h1] at h
    simp only [Option.some_bind] at h
    cases h2 : randrange ir.2 (sw.getD ir.1 []).length with
    | none => rw [h2] at h; simp at h
    | some jr =>
      rw [h2] at h
      simp only [Option.some_bind] at h
      cases h3 : randrange jr.2 SPECIAL_CHARS.length with
      | none => rw [h3] at h; simp at h
      | some kr =>
        rw [h3] at h
        simp only [Option.some_bind, Option.some.injEq, Prod.mk.injEq] at h
        refine ⟨ir.1, jr.1, SPECIAL_CHARS.getD kr.1 ' ', ?_, h.1.symm⟩
        exact getD_mem (randrange_lt h3)

/-- A substitution round cannot fail when there is at least one word and
every word is nonempty. -/
theorem substRound_total {r : RndGen} {sw : List (List Char)}
    (hne : sw ≠ []) (hwords : ∀ w ∈ sw, w ≠ []) :
    ∃ sw2 r2, substRound r sw = some (sw2, r2) := by
  have hlen : sw.length ≠ 0 := fun h => hne (List.eq_nil_of_length_eq_zero h)
  have hi : r.raw r.t % sw.length < sw.length := Nat.mod_lt _ (Nat.pos_of_ne_zero hlen)
  have hinner : sw.getD (r.raw r.t % sw.length) [] ∈ sw := getD_mem hi
  have hinner_len : (sw.getD (r.raw r.t % sw.length) []).length ≠ 0 := by
    intro h0
    exact hwords _ hinner (List.eq_nil_of_length_eq_zero h0)
  have hsc : SPECIAL_CHARS.length ≠ 0 := by decide
  unfold substRound
  rw [randrange_pos hlen]
  simp only [Option.some_bind]
  rw [randrange_pos hinner_len]
  simp only [Option.some_bind]
  rw [randrange_pos hsc]
  simp only [Option.some_bind]
  exact ⟨_, _, rfl⟩

/-! ## Invariants of the substitution loop -/

theorem substRounds_map_length :
    ∀ {m : ℕ} {r : RndGen} {sw sw2 : List (List Char)} {r2 : RndGen},
      substRounds r sw m = some (sw2, r2) →
      sw2.map List.length = sw.map List.length := by
  intro m
  induction m with
  | zero =>
    intro r sw sw2 r2 h
    unfold substRounds at h
    simp only [Option.some.injEq, Prod.mk.injEq] at h
    rw [h.1]
  | succ m ih =>
    intro r sw sw2 r2 h
    unfold substRounds at h
    cases h1 : substRound r sw with
    | none => rw [h1] at h; simp at h
    | some sr =>
      rw [h1] at h
      simp only [Option.some_bind] at h
      obtain ⟨i, j, c, _, hsr⟩ := substRound_eq h1
      have h2 := ih h
      rw [h2, hsr, map_length_set_set]

theorem substRounds_diff :
    ∀ {m : ℕ} {r : RndGen} {sw sw2 : List (List Char)} {r2 : RndGen}
      (orig : List (List Char)),
      substRounds r sw m = some (sw2, r2) →
      diffWords orig sw2 ≤ diffWords orig sw + m := by
  intro m
  induction m with
  | zero =>
    intro r sw sw2 r2 orig h
    unfold substRounds at h
    simp only [Option.some.injEq, Prod.mk.injEq] at h
    rw [h.1]
    omega
  | succ m ih =>
    intro r sw sw2 r2 orig h
    unfold substRounds at h
    cases h1 : substRound r sw with
    | none => rw [h1] at h; simp at h
    | some sr =>
      rw [h1] at h
      simp only [Option.some_bind] at h
      obtain ⟨i, j, c, _, hsr⟩ := substRound_eq h1
      have h2 := ih orig h
      have h3 : diffWords orig sr.1 ≤ diffWords orig sw + 1 := by
        rw [hsr]; exact diffWords_set_le orig sw i j c
      omega

theorem substRounds_special :
    ∀ {m : ℕ} {r : RndGen} {sw sw2 : List (List Char)} {r2 : RndGen}
      (orig : List (List Char)),
      substRounds r sw m = some (sw2, r2) →
      diffSpecialAll orig sw = true → diffSpecialAll orig sw2 = true := by
  intro m
  induction m with
  | zero =>
    intro r sw sw2 r2 orig h hs
    unfold substRounds at h
    simp only [Option.some.injEq, Prod.mk.injEq] at h
    rw [← h.1]
    exact hs
  | succ m ih =>
    intro r sw sw2 r2 orig h hs
    unfold substRounds at h
    cases h1 : substRound r sw with
    | none => rw [h1] at h; simp at h
    | some sr =>
      rw [h1] at h
      simp only [Option.some_bind] at h
      obtain ⟨i, j, c, hc, hsr⟩ := substRound_eq h1
      refine ih orig h ?_
      rw [hsr]
      exact diffSpecialAll_set orig sw i j c hs hc

theorem substRounds_total :
    ∀ (m : ℕ) {sw : List (List Char)} (r : RndGen),
      sw ≠ [] → (∀ w ∈ sw, w ≠ []) →
      ∃ sw2 r2, substRounds r sw m = some (sw2, r2) := by
  intro m
  induction m with
  | zero => intro sw r _ _; exact ⟨sw, r, rfl⟩
  | succ m ih =>
    intro sw r hne hwords
    obtain ⟨sw1, r1, h1⟩ := substRound_total (r := r) hne hwords
    obtain ⟨i, j, c, _, hsr⟩ := substRound_eq h1
    have hlen : sw1.map List.length = sw.map List.length := by
      rw [hsr, map_length_set_set]
    have hne1 : sw1 ≠ [] := by
      intro h0
      rw [h0] at hlen
      exact hne (List.map_eq_nil_iff.mp hlen.symm)
    have hwords1 : ∀ w ∈ sw1, w ≠ [] := by
      intro w hw h0
      have : w.length ∈ sw1.map List.length := List.mem_map_of_mem _ hw
      rw [hlen] at this
      obtain ⟨w0, hw0, hw0len⟩ := List.mem_map.mp this
      have : w0.length = 0 := by rw [hw0len, h0]; rfl
      exact hwords w0 hw0 (List.eq_nil_of_length_eq_zero this)
    obtain ⟨sw2, r2, h2⟩ := ih r1 hne1 hwords1
    refine ⟨sw2, r2, ?_⟩
    unfold substRounds
    rw [h1]
    simp only [Option.some_bind]
    exact h2

/-! ## Helper lemmas about generate -/

theorem toList_ne_nil {w : String} (h : w ≠ "") : w.toList ≠ [] := by
  obtain ⟨data⟩ := w
  intro h0
  exact h (congrArg String.mk h0)

/-- C1. For every nonempty word list of nonempty words — the spec's
data-model invariant for a validated word list, of which "exactly 7776
lowercase words" is a special case — and every word count `N ≥ 1` and
substitution count `M ≥ 0`, `generate` succeeds and its first component
is an ordered sequence of exactly `N` strings, each an element of the
word list (repetitions allowed, order dictated by the entropy draws). -/
theorem generate_ok (word_list : List String) (words specials : ℕ)
    (r : RndGen) (hne : word_list ≠ []) (hwne : ∀ w ∈ word_list, w ≠ "")
    (hN : 1 ≤ words) :
    ∃ ws sp r2, generate word_list words specials r = some (ws, sp, r2) ∧
      ws.length = words ∧ ∀ w ∈ ws, w ∈ word_list := by
  obtain ⟨ws, r1, hp⟩ := pickWords_total hne words r
  obtain ⟨hlen, hmem⟩ := pickWords_sound hp
  by_cases hM : specials = 0
  · refine ⟨ws, ws, r1, ?_, hlen, hmem⟩
    unfold generate
    rw [hp]
    simp [hM]
  · have hswne : ws.map String.toList ≠ [] := by
      intro h0
      rw [List.map_eq_nil_iff.mp h0] at hlen
      simp at hlen
      omega
    have hwordsne : ∀ w ∈ ws.map String.toList, w ≠ [] := by
      intro w hw
      obtain ⟨w0, hw0, hw0e⟩ := List.mem_map.mp hw
      exact hw0e ▸ toList_ne_nil (hwne w0 (hmem w0 hw0))
    obtain ⟨sw2, r2, hs⟩ := substRounds_total specials r1 hswne hwordsne
    refine ⟨ws, sw2.map String.mk, r2, ?_, hlen, hmem⟩
    unfold generate
    rw [hp]
    simp only [Option.some_bind, hM, ne_eq, not_false_eq_true, if_true]
    rw [hs]
    rfl

/-- C1. For every word list satisfying the spec's data-model invariant
(nonempty, nonempty words — "exactly 7776 lowercase words" is a special
case) and every word count `N ≥ 1` and substitution count `M ≥ 0`,
`generate(word_list, N, M)` returns as its first component an ordered
sequence of exactly `N` strings, each an element of the word list
(repetitions allowed). -/
theorem generate_first_component (word_list : List String) (words specials : ℕ)
    (r : RndGen) (hne : word_list ≠ []) (hwne : ∀ w ∈ word_list, w ≠ "")
    (hN : 1 ≤ words) :
    ∃ ws sp r2, generate word_list words specials r = some (ws, sp, r2) ∧
      ws.length = words ∧ ∀ w ∈ ws, w ∈ word_list :=
  generate_ok word_list words specials r hne hwne hN

/-- Witness for C1 at the concrete input `generate(["ab"], 1, 1)` with the
all-zeros entropy oracle. -/
theorem generate_first_component_witness :
    ∃ ws sp r2, generate ["ab"] 1 1 ⟨fun _ => 0, 0⟩ = some (ws, sp, r2) ∧
      ws.length = 1 ∧ ∀ w ∈ ws, w ∈ ["ab"] :=
  generate_first_component ["ab"] 1 1 ⟨fun _ => 0, 0⟩ (by decide) (by decide)
    (by decide)

/-- C2. Whenever `generate` returns, the with-specials sequence has the
same number of words as the word sequence, corresponding words have the
same length, the two differ in at most `specials` character positions in
total (overlapping rounds make it fewer: each round rewrites one position,
the last write winning), every differing character belongs to
`SPECIAL_CHARS`, and with `specials = 0` the two sequences are
identical.  All characters outside the differing positions agree by
definition of the difference count. -/
theorem generate_frame (word_list : List String)
    (words specials : ℕ) (r : RndGen) (ws sp : List String) (r2 : RndGen)
    (h : generate word_list words specials r = some (ws, sp, r2)) :
    sp.length = ws.length ∧
    sp.map String.length = ws.map String.length ∧
    diffWords (ws.map String.toList) (sp.map String.toList) ≤ specials ∧
    diffSpecialAll (ws.map String.toList) (sp.map String.toList) = true ∧
    (specials = 0 → sp = ws) := by
  unfold generate at h
  cases hp : pickWords r word_list words with
  | none => rw [hp] at h; simp at h
  | some wr =>
    rw [hp] at h
    simp only [Option.some_bind] at h
    by_cases hM : specials = 0
    · simp only [hM, ne_eq, not_true_eq_false, if_false, Option.some.injEq,
        Prod.mk.injEq] at h
      obtain ⟨hws, hsp, _⟩ := h
      subst hws
      subst hsp
      exact ⟨rfl, rfl, by simp [diffWords_refl], diffSpecialAll_refl _,
        fun _ => rfl⟩
    · simp only [hM, ne_eq, not_false_eq_true, if_true] at h
      cases hs : substRounds wr.2 (wr.1.map String.toList) specials with
      | none => rw [hs] at h; simp at h
      | some sr =>
        rw [hs] at h
        simp only [Option.map_some', Option.some.injEq, Prod.mk.injEq] at h
        obtain ⟨hws, hsp, _⟩ := h
        rw [← hws, ← hsp]
        have hround : (String.toList ∘ String.mk) = id := rfl
        have hkey : (sr.1.map String.mk).map String.toList = sr.1 := by
          rw [List.map_map, hround, List.map_id]
        have hlen := substRounds_map_length hs
        have hlens : (sr.1.map String.mk).map String.length =
            wr.1.map String.length := by
          have h1 : (sr.1.map String.mk).map String.length =
              sr.1.map List.length := by
            rw [List.map_map]; rfl
          have h2 : (wr.1.map String.toList).map List.length =
              wr.1.map String.length := by
            rw [List.map_map]; rfl
          rw [h1, hlen, h2]
        refine ⟨?_, hlens, ?_, ?_, fun h0 => absurd h0 hM⟩
        · have := congrArg List.length hlens
          simpa using this
        · rw [hkey]
          have := substRounds_diff (wr.1.map String.toList) hs
          rw [diffWords_refl] at this
          omega
        · rw [hkey]
          exact substRounds_special (wr.1.map String.toList) hs
            (diffSpecialAll_refl _)

/-- C2. Whenever `generate` returns, the with-specials sequence has as
many words as the first-returned word sequence, corresponding words have
equal lengths, the two sequences differ in at most `M` character positions
in total (fewer when rounds overlap, the last write winning), every
differing character is a member of the special-character alphabet (all
other characters are identical by definition of the difference count),
and when `M = 0` the with-specials sequence equals the word sequence
exactly. -/
theorem generate_with_specials_frame (word_list : List String)
    (words specials : ℕ) (r : RndGen) (ws sp : List String) (r2 : RndGen)
    (h : generate word_list words specials r = some (ws, sp, r2)) :
    sp.length = ws.length ∧
    sp.map String.length = ws.map String.length ∧
    diffWords (ws.map String.toList) (sp.map String.toList) ≤ specials ∧
    diffSpecialAll (ws.map String.toList) (sp.map String.toList) = true ∧
    (specials = 0 → sp = ws) :=
  generate_frame word_list words specials r ws sp r2 h

/-- Witness for C2 at the concrete call `generate(["ab"], 1, 1)` with the
all-zeros entropy oracle, which rewrites the first character to the tilde:
the result is `(["ab"], ["~b"])`. -/
theorem generate_with_specials_frame_witness :
    (["~b"] : List String).length = (["ab"] : List String).length ∧
    (["~b"] : List String).map String.length = (["ab"] : List String).map String.length ∧
    diffWords ((["ab"] : List String).map String.toList)
      ((["~b"] : List String).map String.toList) ≤ 1 ∧
    diffSpecialAll ((["ab"] : List String).map String.toList)
      ((["~b"] : List String).map String.toList) = true ∧
    ((1 : ℕ) = 0 → (["~b"] : List String) = ["ab"]) :=
  generate_with_specials_frame ["ab"] 1 1 ⟨fun _ => 0, 0⟩ ["ab"] ["~b"]
    ⟨fun _ => 0, 4⟩ rfl

/-- C5. The special-character alphabet holds exactly 36 distinct
characters, and indexing it with any index below the draw modulus — which
in `substRound` is `SPECIAL_CHARS.length` itself, mirroring
`rnd.randrange(len(SPECIAL_CHARS))` in the source — is in bounds and
enumerates the whole alphabet: the third conjunct says the values
`SPECIAL_CHARS[k]` for `k = 0..35` are exactly the alphabet in order, so
no index is out of bounds and no trailing character is unreachable. -/
theorem special_chars_alphabet :
    SPECIAL_CHARS.length = 36 ∧ SPECIAL_CHARS.Nodup ∧
    List.ofFn (fun k : Fin 36 => SPECIAL_CHARS.getD k.val ' ') = SPECIAL_CHARS := by
  decide

/-! ## Claims about the Entropy-to-Integer Mapper -/

/-- Reading bits advances the stream position by exactly the bit count:
`read_bits` consumes exactly `count` bits. -/
theorem read_bits_pos (src : ℕ → Bool) :
    ∀ (count pos : ℕ), (read_bits src pos count).2 = pos + count := by
  intro count
  induction count with
  | zero => intro pos; rfl
  | succ c ih =>
    intro pos
    unfold read_bits
    simp only
    rw [ih (pos + 1)]
    omega

/-- A `count`-bit read yields a `count`-bit integer. -/
theorem read_bits_lt (src : ℕ → Bool) :
    ∀ (count pos : ℕ), (read_bits src pos count).1 < 2 ^ count := by
  intro count
  induction count with
  | zero => intro pos; simp [read_bits]
  | succ c ih =>
    intro pos
    unfold read_bits
    simp only
    have h1 := ih (pos + 1)
    have h2 : (if src pos then (1 : ℕ) else 0) ≤ 1 := by split <;> omega
    have h3 : (2 : ℕ) ^ (c + 1) = 2 * 2 ^ c := by ring
    omega

theorem leastPow_eq_clog {n : ℕ} :
    ∀ (fuel b : ℕ), n ≤ 2 ^ (b + fuel) → (∀ c, c < b → ¬ n ≤ 2 ^ c) →
      leastPow n fuel b = Nat.clog 2 n := by
  intro fuel
  induction fuel with
  | zero =>
    intro b hcover hmin
    simp only [Nat.add_zero] at hcover
    have h1 : Nat.clog 2 n ≤ b := (Nat.le_pow_iff_clog_le (by omega)).mp hcover
    have h2 : ¬ Nat.clog 2 n < b := fun hlt =>
      hmin _ hlt (Nat.le_pow_clog (by omega) n)
    simp only [leastPow]
    omega
  | succ fuel ih =>
    intro b hcover hmin
    simp only [leastPow]
    by_cases hb : n ≤ 2 ^ b
    · have h1 : Nat.clog 2 n ≤ b := (Nat.le_pow_iff_clog_le (by omega)).mp hb
      have h2 : ¬ Nat.clog 2 n < b := fun hlt =>
        hmin _ hlt (Nat.le_pow_clog (by omega) n)
      simp only [hb, if_true]
      omega
    · simp only [hb, if_false]
      refine ih (b + 1) (by rw [show b + 1 + fuel = b + (fuel + 1) by omega]; exact hcover) ?_
      intro c hc
      rcases Nat.lt_succ_iff_lt_or_eq.mp hc with hc | hc
      · exact hmin c hc
      · rw [hc]; exact hb

/-- The bit count the Mapper computes is the ceiling base-2 logarithm. -/
theorem nbits_eq_clog (n : ℕ) : nbits n = Nat.clog 2 n := by
  by_cases hn : n = 0
  · rw [hn, Nat.clog_zero_right]; rfl
  · exact leastPow_eq_clog n 0
      (by simpa using Nat.le_of_lt (Nat.lt_two_pow n)) (by omega)

theorem uniformLoop_lt {src : ℕ → Bool} {b n : ℕ} :
    ∀ {fuel pos v pos2 : ℕ},
      uniformLoop src b n fuel pos = some (v, pos2) → v < n := by
  intro fuel
  induction fuel with
  | zero => intro pos v pos2 h; simp [uniformLoop] at h
  | succ fuel ih =>
    intro pos v pos2 h
    unfold uniformLoop at h
    by_cases hacc : (read_bits src pos b).1 < n
    · simp only [hacc, if_true, Option.some.injEq] at h
      rw [h] at hacc
      exact hacc
    · simp only [hacc, if_false] at h
      exact ih h

/-- C4 (modelled from the spec; see the Mapper section above).  For every
entropy source and `n ≥ 1`: with `n = 1`, `uniform` returns 0 and leaves
the stream position untouched (consumes no entropy); otherwise it
rejection-samples `ceil(log2 n)`-bit draws via `read_bits` — that loop is
`uniformLoop src (nbits n) n` by definition of `uniform` — and any value
it returns is in `[0, n)` (never `≥ n`; values are naturals, so never
negative). -/
theorem uniform_in_range (src : ℕ → Bool) (pos n fuel : ℕ) (hn : 1 ≤ n) :
    (n = 1 → uniform src pos n fuel = some (0, pos)) ∧
    (n ≠ 1 → uniform src pos n fuel = uniformLoop src (nbits n) n fuel pos) ∧
    nbits n = Nat.clog 2 n ∧
    ∀ v pos2, uniform src pos n fuel = some (v, pos2) → v < n := by
  refine ⟨fun h1 => by unfold uniform; simp [h1],
    fun h1 => by unfold uniform; simp [h1], nbits_eq_clog n, ?_⟩
  intro v pos2 h
  unfold uniform at h
  by_cases h1 : n = 1
  · simp only [h1, if_true, Option.some.injEq, Prod.mk.injEq] at h
    omega
  · simp only [h1, if_false] at h
    exact uniformLoop_lt h

/-- Witness for C4 with the all-zeros bit stream, `n = 3`, one unit of
fuel: two bits are read, the value 0 is accepted, and `0 < 3`. -/
theorem uniform_in_range_witness :
    uniform (fun _ => false) 0 3 1 = some (0, 2) ∧ 0 < 3 :=
  ⟨rfl, (uniform_in_range (fun _ => false) 0 3 1 (by decide)).2.2.2 0 2 rfl⟩

/-! ## Claims about generate_grid -/

theorem gridRows_total {word_list : List String} {words specials : ℕ}
    (hne : word_list ≠ []) (hwne : ∀ w ∈ word_list, w ≠ "") (hN : 1 ≤ words) :
    ∀ (n : ℕ) (r : RndGen) (acc : ℕ),
      ∃ rows L r2, gridRows word_list words specials n r acc = some (rows, L, r2) ∧
        rows.length = n := by
  intro n
  induction n with
  | zero => intro r acc; exact ⟨[], acc, r, rfl, rfl⟩
  | succ n ih =>
    intro r acc
    obtain ⟨ws, sp, r1, hg, _, _⟩ := generate_ok word_list words specials r hne hwne hN
    obtain ⟨rows, L, r2, hrec, hlen⟩ := ih r1 (max (rowMax ws) acc)
    refine ⟨(if specials ≠ 0 then sp else ws) :: rows, L, r2, ?_, by simp [hlen]⟩
    unfold gridRows
    rw [hg]
    simp only [Option.some_bind]
    rw [hrec]
    rfl

/-- C6. For every word list satisfying the data-model invariant and every
`N ≥ 1`, `M ≥ 0`, grid mode succeeds and returns exactly `N` rows; by the
structure of `gridRows`, each of the `N` loop iterations invokes the
single-row generator `generate` exactly once, afresh on the threaded
entropy state (fresh word selection and substitution). -/
theorem generate_grid_row_count (word_list : List String) (words specials : ℕ)
    (r : RndGen) (hne : word_list ≠ []) (hwne : ∀ w ∈ word_list, w ≠ "")
    (hN : 1 ≤ words) :
    ∃ rows L r2, generate_grid word_list words specials r = some (rows, L, r2) ∧
      rows.length = words := by
  unfold generate_grid
  exact gridRows_total hne hwne hN words r 0

/-- Witness for C6 at the concrete input `generate_grid(["ab"], 1, 1)`
with the all-zeros entropy oracle. -/
theorem generate_grid_row_count_witness :
    ∃ rows L r2, generate_grid ["ab"] 1 1 ⟨fun _ => 0, 0⟩ = some (rows, L, r2) ∧
      rows.length = 1 :=
  generate_grid_row_count ["ab"] 1 1 ⟨fun _ => 0, 0⟩ (by decide) (by decide)
    (by decide)

theorem gridRows_longest {word_list : List String} {words specials : ℕ} :
    ∀ {n : ℕ} {r : RndGen} {acc : ℕ} {rows : List (List String)} {L : ℕ}
      {r2 : RndGen},
      gridRows word_list words specials n r acc = some (rows, L, r2) →
      L = max (maxWordLen rows) acc := by
  intro n
  induction n with
  | zero =>
    intro r acc rows L r2 h
    unfold gridRows at h
    simp only [Option.some.injEq, Prod.mk.injEq] at h
    rw [← h.1, ← h.2.1]
    simp [maxWordLen]
  | succ n ih =>
    intro r acc rows L r2 h
    unfold gridRows at h
    cases hg : generate word_list words specials r with
    | none => rw [hg] at h; simp at h
    | some g =>
      rw [hg] at h
      simp only [Option.some_bind] at h
      cases hrec : gridRows word_list words specials n g.2.2 (max (rowMax g.1) acc) with
      | none => rw [hrec] at h; simp at h
      | some pr =>
        rw [hrec] at h
        simp only [Option.map_some', Option.some.injEq, Prod.mk.injEq] at h
        obtain ⟨hrows, hLr⟩ := h
        have hIH := ih hrec
        have hrow : rowMax (if specials ≠ 0 then g.2.1 else g.1) = rowMax g.1 := by
          by_cases hM : specials = 0
          · simp [hM]
          · simp only [hM, ne_eq, not_false_eq_true, if_true]
            obtain ⟨_, hlens, _, _, _⟩ := generate_frame word_list words specials
              r g.1 g.2.1 g.2.2 (by rw [hg])
            unfold rowMax
            rw [hlens]
        have hL : pr.2.1 = L := by rw [hLr]
        rw [← hrows, ← hL]
        have hcons : maxWordLen ((if specials ≠ 0 then g.2.1 else g.1) :: pr.1) =
            max (rowMax g.1) (maxWordLen pr.1) := by
          unfold maxWordLen
          simp only [List.map_cons, List.foldr_cons]
          rw [hrow]
        rw [hcons, hIH, Nat.max_assoc]
        exact max_left_comm _ _ _

/-- C7. Whenever `generate_grid` returns, the reported maximum word width
equals the length of the longest word occurring in the returned rows —
also for `M > 0`, where the rows hold substituted words, because each
substitution swaps a single character for a single character and keeps
every word length unchanged. -/
theorem generate_grid_longest (word_list : List String) (words specials : ℕ)
    (r : RndGen) (rows : List (List String)) (L : ℕ) (r2 : RndGen)
    (h : generate_grid word_list words specials r = some (rows, L, r2)) :
    L = maxWordLen rows := by
  unfold generate_grid at h
  have := gridRows_longest h
  simpa using this

/-- Witness for C7 at the concrete grid `generate_grid(["ab"], 1, 1)` with
the all-zeros entropy oracle: the single returned row is `["~b"]` and the
reported width 2 is the length of its longest word. -/
theorem generate_grid_longest_witness :
    (2 : ℕ) = maxWordLen [["~b"]] :=
  generate_grid_longest ["ab"] 1 1 ⟨fun _ => 0, 0⟩ [["~b"]] 2 ⟨fun _ => 0, 4⟩ rfl

/-! ## Claim C8: the shape of the grid-mode return value

The spec says grid mode returns "a sequence of such row-pairs plus the
maximum word width", a row-pair being (sequence of N words, sequence of N
words-with-substitutions).  The code (source lines 65-69) appends only ONE
sequence per row — `with_specials` when `specials` is truthy, `word_row`
otherwise — and discards the other, so the claim fails on the code. -/

/-- Counterexample for C8.  At `generate_grid(["ab"], 1, 1)` with the
all-zeros oracle the underlying `generate` call produces the row-pair
`(["ab"], ["~b"])` with `["ab"] ≠ ["~b"]`, yet the grid result carries
only the with-specials sequence `["~b"]` (plus the width 2): the word
sequence `["ab"]` of the pair appears nowhere in the returned rows, so
the return value is not a sequence of row-pairs. -/
theorem generate_grid_not_row_pairs :
    ((generate_grid ["ab"] 1 1 ⟨fun _ => 0, 0⟩).map fun g => (g.1, g.2.1)) =
      some ([["~b"]], 2) ∧
    ((generate ["ab"] 1 1 ⟨fun _ => 0, 0⟩).map fun g => (g.1, g.2.1)) =
      some (["ab"], ["~b"]) ∧
    (["ab"] : List String) ≠ ["~b"] ∧
    (["ab"] : List String) ∉ [(["~b"] : List String)] :=
  ⟨rfl, rfl, by decide, by decide⟩

theorem gridRows_vs_pairs {word_list : List String} {words specials : ℕ} :
    ∀ {n : ℕ} {r : RndGen} {acc : ℕ} {rows : List (List String)} {L : ℕ}
      {r2 : RndGen} {pairs : List (List String × List String)} {L2 : ℕ}
      {r3 : RndGen},
      gridRows word_list words specials n r acc = some (rows, L, r2) →
      gridRowsPairs word_list words specials n r acc = some (pairs, L2, r3) →
      rows = pairs.map (fun p => if specials ≠ 0 then p.2 else p.1) ∧
        L = L2 ∧ r2 = r3 := by
  intro n
  induction n with
  | zero =>
    intro r acc rows L r2 pairs L2 r3 h h2
    unfold gridRows at h
    unfold gridRowsPairs at h2
    simp only [Option.some.injEq, Prod.mk.injEq] at h h2
    rw [← h.1, ← h.2.1, ← h.2.2, ← h2.1, ← h2.2.1, ← h2.2.2]
    exact ⟨rfl, rfl, rfl⟩
  | succ n ih =>
    intro r acc rows L r2 pairs L2 r3 h h2
    unfold gridRows at h
    unfold gridRowsPairs at h2
    cases hg : generate word_list words specials r with
    | none => rw [hg] at h; simp at h
    | some g =>
      rw [hg] at h h2
      simp only [Option.some_bind] at h h2
      cases hrec : gridRows word_list words specials n g.2.2 (max (rowMax g.1) acc) with
      | none => rw [hrec] at h; simp at h
      | some pr =>
        cases hrec2 : gridRowsPairs word_list words specials n g.2.2
            (max (rowMax g.1) acc) with
        | none => rw [hrec2] at h2; simp at h2
        | some qr =>
          rw [hrec] at h
          rw [hrec2] at h2
          simp only [Option.map_some', Option.some.injEq, Prod.mk.injEq] at h h2
          obtain ⟨hrows, hLr⟩ := h
          obtain ⟨hpairs, hLr2⟩ := h2
          obtain ⟨hrec_rows, hrec_L, hrec_r⟩ := ih hrec hrec2
          refine ⟨?_, ?_, ?_⟩
          · rw [← hrows, ← hpairs]
            simp only [List.map_cons, hrec_rows]
          · have e1 : pr.2.1 = L := by rw [hLr]
            have e2 : qr.2.1 = L2 := by rw [hLr2]
            rw [← e1, ← e2, hrec_L]
          · have e1 : pr.2.2 = r2 := by rw [hLr]
            have e2 : qr.2.2 = r3 := by rw [hLr2]
            rw [← e1, ← e2, hrec_r]

/-- C8, amended.  In grid mode the core returns a sequence of rows plus
the maximum word width, where each row is a SINGLE word sequence — the
row's with-specials sequence when `M > 0`, its plain word sequence when
`M = 0` — rather than the row-pair of both: the rows are exactly the
single-component projections of the spec-shaped row-pair result
(`generate_grid_pairs`, built from the same `generate` calls on the same
entropy), and the maximum word width agrees. -/
theorem generate_grid_single_rows (word_list : List String)
    (words specials : ℕ) (r : RndGen) (rows : List (List String)) (L : ℕ)
    (r2 : RndGen) (pairs : List (List String × List String)) (L2 : ℕ)
    (r3 : RndGen)
    (h : generate_grid word_list words specials r = some (rows, L, r2))
    (h2 : generate_grid_pairs word_list words specials r = some (pairs, L2, r3)) :
    rows = pairs.map (fun p => if specials ≠ 0 then p.2 else p.1) ∧ L = L2 := by
  unfold generate_grid at h
  unfold generate_grid_pairs at h2
  obtain ⟨ha, hb, _⟩ := gridRows_vs_pairs h h2
  exact ⟨ha, hb⟩

/-- Witness for the amended C8 at `generate_grid(["ab"], 1, 1)` with the
all-zeros oracle: the single row `["~b"]` is the with-specials projection
of the spec-shaped row-pair `(["ab"], ["~b"])`, and the widths agree. -/
theorem generate_grid_single_rows_witness :
    ([["~b"]] : List (List String)) =
      ([(["ab"], ["~b"])] : List (List String × List String)).map
        (fun p => if (1 : ℕ) ≠ 0 then p.2 else p.1) ∧ (2 : ℕ) = 2 :=
  generate_grid_single_rows ["ab"] 1 1 ⟨fun _ => 0, 0⟩ [["~b"]] 2
    ⟨fun _ => 0, 4⟩ [(["ab"], ["~b"])] 2 ⟨fun _ => 0, 4⟩ rfl rfl

/-! ## Claims about read_word_list -/

/-- The only exception the comprehension's filter can raise is the
out-of-bounds `IndexError` from `line[5]`. -/
theorem lineTest_error {line : String} {e : PyError}
    (h : lineTest line = .error e) : e = .indexError := by
  unfold lineTest at h
  by_cases h1 : pyIsdigit (line.toList.take 5) = true
  · rw [if_pos h1] at h
    cases h2 : line.toList[5]? with
    | none => rw [h2] at h; exact (Except.error.injEq _ _).mp h.symm
    | some c => rw [h2] at h; simp at h
  · rw [if_neg h1] at h
    simp at h

/-- When the filter evaluates without an exception, its boolean value is
the mathematical five-digits-plus-whitespace condition. -/
theorem lineTest_ok {line : String} {b : Bool}
    (h : lineTest line = .ok b) : passesFilter line = b := by
  unfold lineTest at h
  unfold passesFilter
  by_cases h1 : pyIsdigit (line.toList.take 5) = true
  · rw [if_pos h1] at h
    cases h2 : line.toList[5]? with
    | none => rw [h2] at h; simp at h
    | some c =>
      rw [h2] at h
      simp only [Except.ok.injEq] at h
      rw [h1]
      simpa using h
  · rw [if_neg h1] at h
    simp only [Except.ok.injEq] at h
    rw [← h]
    simp only [Bool.and_eq_false_iff]
    left
    simpa using h1

/-- A nonempty all-digit line of length at most 5 (in particular the
claim's length-exactly-5 case) makes the comprehension raise
`IndexError` when it reaches that line. -/
theorem collectWords_crash :
    ∀ (lines : List String) (line : String), line ∈ lines →
      line.toList ≠ [] → line.toList.all Char.isDigit = true →
      line.toList.length ≤ 5 →
      collectWords lines = .error .indexError := by
  intro lines
  induction lines with
  | nil => intro line hmem; simp at hmem
  | cons l rest ih =>
    intro line hmem hne hdig hlen
    rcases List.mem_cons.mp hmem with hl | hl
    · have hcrash : lineTest l = .error .indexError := by
        unfold lineTest
        rw [hl] at hne hdig hlen
        have htake : l.toList.take 5 = l.toList := List.take_of_length_le hlen
        have hdig5 : pyIsdigit (l.toList.take 5) = true := by
          unfold pyIsdigit
          rw [htake]
          simp only [Bool.and_eq_true]
          exact ⟨by simpa using hne, hdig⟩
        rw [if_pos hdig5]
        have hnone : l.toList[5]? = none := List.getElem?_eq_none hlen
        rw [hnone]
      unfold collectWords
      rw [hcrash]
    · have hrec := ih line hl hne hdig hlen
      unfold collectWords
      cases ht : lineTest l with
      | error e =>
        have he := lineTest_error ht
        rw [he]
      | ok b =>
        rw [hrec]

/-- C10.  `read_word_list` can fail with the out-of-bounds `IndexError`
instead of the invalid-word-list-format `ValueError`: whenever the input
contains a line of length exactly 5 consisting of decimal digits (for
example a final line without its trailing newline), the `line[5].isspace()`
test indexes past the end of the line.  (`length = 5` gives `length ≤ 5`
and nonemptiness, under which the crash lemma applies.) -/
theorem read_word_list_oob (lines : List String) (line : String)
    (hmem : line ∈ lines) (hlen : line.toList.length = 5)
    (hdig : line.toList.all Char.isDigit = true) :
    read_word_list lines = .error .indexError ∧
    PyError.indexError ≠ PyError.valueError "invalid word list format" := by
  have hcoll : collectWords lines = .error .indexError :=
    collectWords_crash lines line hmem
      (by intro h0; rw [h0] at hlen; simp at hlen) hdig (by omega)
  constructor
  · unfold read_word_list
    rw [hcoll]
  · intro h
    cases h

/-- Witness for C10 at the single-line input `"11111"` (five digits, no
sixth character). -/
theorem read_word_list_oob_witness :
    read_word_list ["11111"] = .error .indexError ∧
    PyError.indexError ≠ PyError.valueError "invalid word list format" :=
  read_word_list_oob ["11111"] "11111" (by decide) (by decide) (by decide)

/-- C3 (code bug).  The claim — `read_word_list` returns normally exactly
when the five-digits-plus-whitespace filter passes exactly 7776 lines, and
raises the invalid-word-list-format error for any other count — is the
behaviour the code's own comment ("skipping lines which do not start with
5 digits and a white space character") intends, but the code diverges on
short all-digit lines: on `["11111 aword", "22222"]` the filter-passing
count is 1, not 7776, yet the code raises `IndexError` from `line[5]`
instead of the invalid-word-list-format `ValueError` (third conjunct
separates the two errors).  On inputs free of such lines the intended
behaviour shows: `["11111 a", "22222 b"]` (count 2) raises the
format error. -/
theorem read_word_list_error_kind :
    read_word_list ["11111 aword", "22222"] = .error .indexError ∧
    (["11111 aword", "22222"].filter passesFilter).length = 1 ∧
    PyError.indexError ≠ PyError.valueError "invalid word list format" ∧
    read_word_list ["11111 a", "22222 b"] =
      .error (.valueError "invalid word list format") := by
  refine ⟨by rfl, by decide, by decide, by rfl⟩

/-- The comprehension never reorders: walking the lines in input order, a
line contributes `extractWord line` exactly when `passesFilter line`
holds. -/
theorem collectWords_eq_filter_map :
    ∀ (lines : List String) (ws : List String),
      collectWords lines = .ok ws →
      ws = (lines.filter passesFilter).map extractWord := by
  intro lines
  induction lines with
  | nil =>
    intro ws h
    unfold collectWords at h
    simp only [Except.ok.injEq] at h
    rw [← h]
    rfl
  | cons l rest ih =>
    intro ws h
    unfold collectWords at h
    cases ht : lineTest l with
    | error e => rw [ht] at h; simp at h
    | ok b =>
      rw [ht] at h
      cases hrec : collectWords rest with
      | error e => rw [hrec] at h; simp at h
      | ok ws0 =>
        rw [hrec] at h
        simp only [Except.ok.injEq] at h
        have hfil := lineTest_ok ht
        rw [List.filter_cons, hfil]
        cases b with
        | true =>
          simp only [if_true]
          rw [← h, List.map_cons, ih ws0 hrec]
          simp
        | false =>
          simp only [Bool.false_eq_true, if_false]
          rw [← h, ih ws0 hrec]
          simp

/-- C9.  A line of the word-list input contributes a word exactly when its
first five characters are decimal digits and its sixth character is
whitespace (`passesFilter`); the contributed word is the line with its
first six characters removed and surrounding whitespace stripped
(`extractWord`); and the words appear in input-line order.  Stated of the
comprehension (source lines 112-113) through `collectWords`, which
`read_word_list` runs before the length check. -/
theorem line_contributes_iff_filter (lines : List String) (ws : List String)
    (h : collectWords lines = .ok ws) :
    ws = (lines.filter passesFilter).map extractWord :=
  collectWords_eq_filter_map lines ws h

/-- Witness for C9 on a three-line input: the two matching lines
contribute their stripped words in order; the middle line is skipped. -/
theorem line_contributes_iff_filter_witness :
    (["abc", "def"] : List String) =
      ((["11111 abc", "xx", "22222\tdef  "] : List String).filter
        passesFilter).map extractWord :=
  line_contributes_iff_filter ["11111 abc", "xx", "22222\tdef  "]
    ["abc", "def"] (by rfl)

end Diceware
